import Mathlib

/-!
# Verification of the eflips-ingest VDV 451/452 ingestion pipeline

This file is a shallow embedding, in Lean 4, of the parts of
`eflips/ingest/vdv.py` that the specification's claims are about:

* the stop-time reconciler `fix_identical_stop_times` (vdv.py lines 168-215),
* the transactional commit/rollback skeleton of `VdvIngester.ingest`
  (vdv.py lines 278-654),
* the timing-field (SEL_FZT_FELD) resolution in trip assembly
  (vdv.py lines 406-516),
* input validation: `validate_zip_file` (lines 703-731) and
  `validate_input_data_vdv_451` (lines 734-807),
* the per-trip time accumulation and trip creation (lines 519-642),
* the BASIS_VER_GUELTIGKEIT handling of `import_vdv452_table_records`
  (lines 1076-1091),
* the progress-callback plumbing of `VdvIngester.prepare` / `ingest`
  (lines 218-266).

Times are modelled as integers counting microseconds, which is the exact
resolution of Python's `datetime`/`timedelta` arithmetic.  The only
non-exact operation used by the source is `timedelta / int`, which Python
implements by dividing the microsecond count with round-half-to-even; it
is modelled faithfully by `pydiv` below.
-/

/-! ## Python timedelta division

`timedelta.__truediv__(int)` divides the microsecond count using
CPython's `_divide_and_round`: floor divmod, then round half to even. -/

/-- CPython `datetime._divide_and_round a b`: `q, r := divmod a b` (floor
division), then round half to even.  Used by `timedelta / int`. -/
def pydiv (a b : Int) : Int :=
  let q := Int.fdiv a b
  let r := Int.fmod a b * 2
  let greater_than_half := if 0 < b then r > b else r < b
  if greater_than_half ∨ (r = b ∧ q % 2 = 1) then q + 1 else q

/-! ## fix_identical_stop_times (vdv.py lines 168-215)

The Python function takes a list of `StopTime` objects sorted by arrival
time and mutates their `arrival_time` fields in place.  Only the arrival
times are read or written, so the embedding is a function
`List Int → List Int` on the arrival times (in microseconds). -/

/-- One step of building the Python dict
`indizes_of_identical_arrival_times`: `dict[t].append(i)`, inserting a new
key at the end when absent (Python dicts preserve insertion order). -/
def insertGroup (gs : List (Int × List Nat)) (t : Int) (i : Nat) :
    List (Int × List Nat) :=
  match gs with
  | [] => [(t, [i])]
  | (t', is) :: rest =>
    if t = t' then (t', is ++ [i]) :: rest
    else (t', is) :: insertGroup rest t i

/-- vdv.py lines 176-180: group the indices of the stop times by arrival
time, in insertion order. -/
def buildGroups (ts : List Int) : List (Int × List Nat) :=
  ts.enum.foldl (fun gs p => insertGroup gs p.2 p.1) []

/-- vdv.py line 181: keep only the groups with more than one index. -/
def dupGroups (ts : List Int) : List (Int × List Nat) :=
  (buildGroups ts).filter (fun g => 1 < g.2.length)

/-- vdv.py lines 209-210: `for i, idx in enumerate(identical_arrival_times):
stop_times[idx].arrival_time += i * offset`. -/
def shiftGroup (ts : List Int) (is : List Nat) (offset : Int) : List Int :=
  is.enum.foldl (fun acc p => acc.set p.2 (acc.getD p.2 0 + p.1 * offset)) ts

/-- vdv.py lines 213-215: subtract `max_offset` from every member of the
group. -/
def unshiftGroup (ts : List Int) (is : List Nat) (max_offset : Int) :
    List Int :=
  is.foldl (fun acc idx => acc.set idx (acc.getD idx 0 - max_offset)) ts

/-- vdv.py lines 189-215, the body of the loop over the duplicate groups.
`n` is `len(stop_times)`.  `diff_before`/`diff_after` default to 60
seconds (in microseconds) at the list boundaries; `offset` is the Python
`timedelta / int` division.  After shifting, the Python code tests
`idx == len(stop_times) - 1` where `idx` has leaked from the loop, i.e.
it is the last index of the group. -/
def processGroup (n : Nat) (ts : List Int) (g : Int × List Nat) : List Int :=
  match g.2 with
  | [] => ts
  | i0 :: restIdx =>
    let lastIdx := restIdx.getLastD i0
    let diff_before : Int :=
      if i0 ≠ 0 then ts.getD i0 0 - ts.getD (i0 - 1) 0 else 60000000
    let diff_after : Int :=
      if lastIdx ≠ n - 1 then ts.getD (lastIdx + 1) 0 - ts.getD lastIdx 0
      else 60000000
    let offset := pydiv (min diff_before diff_after) (i0 :: restIdx).length
    let ts1 := shiftGroup ts (i0 :: restIdx) offset
    if lastIdx = n - 1 then
      unshiftGroup ts1 (i0 :: restIdx) (((i0 :: restIdx).length - 1) * offset)
    else ts1

/-- vdv.py lines 168-215, `fix_identical_stop_times`, acting on the list
of arrival times (in microseconds). -/
def fix_identical_stop_times (ts : List Int) : List Int :=
  (dupGroups ts).foldl (processGroup ts.length) ts

/-! ## Run decomposition (proof-side view of the duplicate groups)

On a list sorted by non-decreasing value, the insertion-ordered groups
built by `buildGroups` are exactly the maximal runs of equal values, in
order.  `runLen` and `RunsWF` give that decomposition a form suitable
for induction; they are used only in proofs, never by the embedded
code. -/

/-- Length of the initial segment of `l` consisting of copies of `t`. -/
def runLen (t : Int) : List Int → Nat
  | [] => 0
  | x :: xs => if x = t then runLen t xs + 1 else 0

/-- Predicate `RunsWF ts p rs`: `rs` is the list of maximal runs of equal values of
`ts` from position `p` on, each run recorded as its value together with
its (contiguous) index range. -/
inductive RunsWF (ts : List Int) : Nat → List (Int × List Nat) → Prop
  | nil : RunsWF ts ts.length []
  | cons (p k : Nat) (v : Int) (rs : List (Int × List Nat)) :
      0 < k → p + k ≤ ts.length →
      (∀ j, j < k → ts.getD (p + j) 0 = v) →
      (p + k < ts.length → v < ts.getD (p + k) 0) →
      RunsWF ts (p + k) rs →
      RunsWF ts p ((v, List.range' p k) :: rs)

/-! ## Transactional commit/rollback skeleton of VdvIngester.ingest
(vdv.py lines 278-654)

The `ingest` method opens one SQLAlchemy session, runs the whole
assembly inside a `try:` block (only `session.add`, `session.delete` and
one `session.flush` touch the store there — `session.commit` appears
nowhere inside the block), and ends with

    except Exception as e:
        session.rollback()
        raise e
    finally:
        session.commit()

The session is modelled by the durable store plus the pending
transaction (adds and deletes accumulated since the last commit);
`flush` makes pending work visible inside the transaction but not
durable, so it is a no-op on this abstraction.  The assembly body is
modelled as a list of steps, each adding an entity, deleting one,
flushing, or raising. -/

/-- A target entity created by the ingestion (eflips-model object). -/
inductive DbEntity
  | scenario (id : Nat)
  | vehicleType (id : Nat)
  | rotation (id : Nat)
  | station (id : Nat)
  | line (id : Nat)
  | route (id : Nat)
  | trip (id : Nat)
  | stopTime (id : Nat)
deriving DecidableEq, Repr

/-- A SQLAlchemy session: durable store plus pending transaction. -/
structure DbSession where
  committed : List DbEntity
  txnAdds : List DbEntity
  txnDels : List DbEntity
deriving DecidableEq, Repr

/-- One step of the assembly body inside the `try:` block. -/
inductive IngestStep
  | add (e : DbEntity)
  | delete (e : DbEntity)
  | flush
  | raiseError (msg : String)
deriving DecidableEq, Repr

/-- Execute one step against the session. -/
def runStep (s : DbSession) : IngestStep → DbSession × Option String
  | .add e => ({ s with txnAdds := s.txnAdds ++ [e] }, none)
  | .delete e => ({ s with txnDels := s.txnDels ++ [e] }, none)
  | .flush => (s, none)
  | .raiseError m => (s, some m)

/-- Execute the body until the first raised error (fail-fast). -/
def runBody (s : DbSession) : List IngestStep → DbSession × Option String
  | [] => (s, none)
  | st :: rest =>
    match runStep s st with
    | (s', none) => runBody s' rest
    | (s', some m) => (s', some m)

/-- Model of `session.rollback()`: discard the pending transaction. -/
def rollbackS (s : DbSession) : DbSession := { s with txnAdds := [], txnDels := [] }

/-- Model of `session.commit()`: make the pending transaction durable. -/
def commitS (s : DbSession) : DbSession :=
  { committed := s.committed.filter (fun e => !s.txnDels.contains e) ++ s.txnAdds,
    txnAdds := [], txnDels := [] }

/-- vdv.py lines 279-654: run the assembly body inside the session; on an
exception roll back, then (in `finally:`) commit, and re-raise. -/
def vdvIngest (s : DbSession) (body : List IngestStep) : DbSession × Option String :=
  match runBody s body with
  | (s1, some m) => (commitS (rollbackS s1), some m)
  | (s1, none) => (commitS s1, none)

/-! ## SEL_FZT_FELD (Timing-Field) resolution (vdv.py lines 406-516) -/

/-- One SEL_FZT_FELD record: driving duration (`sel_fzt`, microseconds)
of a route segment under a timing group (`fgr_nr`). -/
structure SelFztFeld where
  basis_version : Int
  bereich_nr : Int
  fgr_nr : Int
  onr_typ_nr : Int
  ort_nr : Int
  sel_ziel_typ : Int
  sel_ziel : Int
  sel_fzt : Int
deriving DecidableEq, Repr

/-- The exact composite key used by `sel_fzt_felds_by_pk` and queried at
vdv.py lines 459-467. -/
structure SelFztKey where
  basis_version : Int
  bereich_nr : Int
  fgr_nr : Int
  onr_typ_nr : Int
  ort_nr : Int
  sel_ziel_typ : Int
  sel_ziel : Int
deriving DecidableEq, Repr

/-- The relaxed key of vdv.py line 418: the exact key without `fgr_nr`. -/
structure SelFztRelaxedKey where
  basis_version : Int
  bereich_nr : Int
  onr_typ_nr : Int
  ort_nr : Int
  sel_ziel_typ : Int
  sel_ziel : Int
deriving DecidableEq, Repr

def SelFztFeld.pkey (x : SelFztFeld) : SelFztKey :=
  ⟨x.basis_version, x.bereich_nr, x.fgr_nr, x.onr_typ_nr, x.ort_nr,
    x.sel_ziel_typ, x.sel_ziel⟩

def relaxKey (k : SelFztKey) : SelFztRelaxedKey :=
  ⟨k.basis_version, k.bereich_nr, k.onr_typ_nr, k.ort_nr, k.sel_ziel_typ,
    k.sel_ziel⟩

/-- Dictionary lookup on an association list (Python `dict[key]`,
`none` modelling a `KeyError`). -/
def alookup {κ α : Type} [DecidableEq κ] : List (κ × α) → κ → Option α
  | [], _ => none
  | (k, a) :: rest, q => if q = k then some a else alookup rest q

/-- Python `dict.setdefault(k, []).append(x)`: append `x` to the group of key
`k`, creating the group at the end when absent. -/
def insertByKey {κ α : Type} [DecidableEq κ] (gs : List (κ × List α)) (k : κ)
    (x : α) : List (κ × List α) :=
  match gs with
  | [] => [(k, [x])]
  | (k', xs) :: rest =>
    if k = k' then (k', xs ++ [x]) :: rest
    else (k', xs) :: insertByKey rest k x

/-- Group a list by a key function, keys in first-occurrence order
(vdv.py lines 408-421 build the two SEL_FZT_FELD indexes this way). -/
def groupByKey {κ α : Type} [DecidableEq κ] (key : α → κ) (l : List α) :
    List (κ × List α) :=
  l.foldl (fun acc x => insertByKey acc (key x) x) []

def sel_fzt_felds_by_pk (l : List SelFztFeld) : List (SelFztKey × List SelFztFeld) :=
  groupByKey SelFztFeld.pkey l

def sel_fzt_felds_by_relaxed_pk (l : List SelFztFeld) :
    List (SelFztRelaxedKey × List SelFztFeld) :=
  groupByKey (fun x => relaxKey x.pkey) l

/-- vdv.py lines 504-515: the dummy record built from the queried key. -/
def mkDummySelFztFeld (k : SelFztKey) (duration : Int) : SelFztFeld :=
  ⟨k.basis_version, k.bereich_nr, k.fgr_nr, k.onr_typ_nr, k.ort_nr,
    k.sel_ziel_typ, k.sel_ziel, duration⟩

/-- vdv.py lines 458-516: resolve the timing field for one route segment.
First the exact key is tried (lines 469-470); on a miss the relaxed key
is looked up and the FIRST candidate is taken without any further check
(lines 471-484).  Only when the list still has length different from one
— which after the relaxed fallback is impossible — are the candidate
durations compared, raising on disagreement (lines 486-515). -/
def resolveSelFzt (byPk : List (SelFztKey × List SelFztFeld))
    (byRelaxed : List (SelFztRelaxedKey × List SelFztFeld))
    (pk : SelFztKey) : Except String SelFztFeld :=
  let step1 : Except String (List SelFztFeld) :=
    match alookup byPk pk with
    | some l => .ok l
    | none =>
      match alookup byRelaxed (relaxKey pk) with
      | none => .error "KeyError"
      | some [] => .error "IndexError"
      | some (x :: _) => .ok [x]
  match step1 with
  | .error m => .error m
  | .ok [] => .ok (mkDummySelFztFeld pk 0)
  | .ok [x] => .ok x
  | .ok (x :: y :: rest) =>
    let durations := (x :: y :: rest).map (fun z => z.sel_fzt)
    if durations.dedup.length ≠ 1 then
      .error "Multiple SelFztFelds have different durations"
    else .ok (mkDummySelFztFeld pk x.sel_fzt)

/-! ## Schema validation (vdv.py lines 734-807)

`validate_input_data_vdv_451` reads only the header of every `.x10`
file (`check_vdv451_file_header` stops at the first `rec` line), so its
input is modelled as the list of table names of the files whose header
parsed, in file order.  Record decoding (`import_vdv452_table_records`)
happens later, inside `ingest`. -/

/-- VDV 451/452 table names (vdv.py lines 52-86). -/
inductive VDV_Table_Name
  | MENGE_BASIS_VERSIONEN
  | BASIS_VER_GUELTIGKEIT
  | FIRMENKALENDER
  | MENGE_TAGESART
  | MENGE_ONR_TYP
  | MENGE_ORT_TYP
  | REC_HP
  | REC_OM
  | REC_ORT
  | FAHRZEUG
  | ZUL_VERKEHRSBETRIEB
  | MENGE_BEREICH
  | MENGE_FZG_TYP
  | REC_ANR
  | REC_ZNR
  | REC_SEL
  | REC_SEL_ZP
  | MENGE_FGR
  | ORT_HZTF
  | SEL_FZT_FELD
  | REC_UEB
  | UEB_FZT
  | MENGE_FAHRTART
  | LID_VERLAUF
  | REC_LID
  | REC_FRT
  | REC_FRT_HZT
  | REC_UMLAUF
deriving DecidableEq, Repr

/-- The ten required tables (vdv.py lines 144-155). -/
def VdvRequiredTables : List VDV_Table_Name :=
  [.BASIS_VER_GUELTIGKEIT, .FIRMENKALENDER, .REC_ORT, .MENGE_FZG_TYP,
    .REC_SEL, .SEL_FZT_FELD, .LID_VERLAUF, .REC_FRT, .REC_UMLAUF, .REC_LID]

/-- vdv.py lines 762-779: collect the table names of the input files into
`all_tables`.  A table name already present raises
`ValueError("... is present in multiple files. Aborting.")` — but that
raise sits inside the same `try:` whose
`except (ValueError, UnicodeDecodeError): ... continue` catches it, so
the duplicate file is silently skipped and the first file wins. -/
def collectTables (names : List VDV_Table_Name) : List VDV_Table_Name :=
  names.foldl (fun acc n => if n ∈ acc then acc else acc ++ [n]) []

/-- vdv.py lines 734-807: schema validation over the table names of the
input files.  Checks, in order: all required tables present (lines
784-792), not both dwell-time tables (lines 796-800), at least one
dwell-time table (lines 802-804). -/
def validate_input_data_vdv_451 (names : List VDV_Table_Name) :
    Except String (List VDV_Table_Name) :=
  let all := collectTables names
  if ¬ VdvRequiredTables.all (fun t => t ∈ all) then
    .error "Not all necessary tables are present in the directory"
  else if VDV_Table_Name.REC_FRT_HZT ∈ all ∧ VDV_Table_Name.ORT_HZTF ∈ all then
    .error "Either REC_FRT_HZT or ORT_HZTF must be present, but both are present"
  else if VDV_Table_Name.REC_FRT_HZT ∉ all ∧ VDV_Table_Name.ORT_HZTF ∉ all then
    .error "Neither REC_FRT_HZT nor ORT_HZTF present in the directory"
  else
    .ok all

/-! ## Zip archive validation (vdv.py lines 703-731) and
VdvIngester.prepare (lines 218-257) -/

/-- One entry of the input zip archive.  The file name is modelled as
its character list (`entry.filename.endswith(".x10")` becomes a suffix
test on the characters). -/
structure ZipEntryM where
  filename : List Char
  file_size : Nat
  is_dir : Bool
deriving DecidableEq, Repr

/-- Python `dict[k] = v`: replace in place or append. -/
def dictInsert (m : List (List Char × String)) (k : List Char) (v : String) :
    List (List Char × String) :=
  match m with
  | [] => [(k, v)]
  | (k', v') :: rest =>
    if k = k' then (k, v) :: rest else (k', v') :: dictInsert rest k v

/-- vdv.py lines 714-724, the body of the loop over the zip entries:
a non-directory `.x10`/`.X10` entry must be non-empty and at most
100 MiB, anything else is recorded as invalid. -/
def zipEntryStep (acc : Bool × List (List Char × String)) (e : ZipEntryM) :
    Bool × List (List Char × String) :=
  if (List.isSuffixOf ".x10".toList e.filename ||
      List.isSuffixOf ".X10".toList e.filename) && !e.is_dir then
    if e.file_size = 0 then
      (false, dictInsert acc.2 e.filename "Empty file")
    else if 100 * 1024 * 1024 < e.file_size then
      (false, dictInsert acc.2 e.filename "File size exceeds 100 MiB")
    else acc
  else
    (false, dictInsert acc.2 e.filename "Invalid file extension or is a directory")

/-- vdv.py lines 703-731, `validate_zip_file`: every entry must be a
non-directory `.x10`/`.X10` file, non-empty and at most 100 MiB; the
result is the `valid` flag and the error-message dict. -/
def validate_zip_file (entries : List ZipEntryM) :
    Bool × List (List Char × String) :=
  entries.foldl zipEntryStep (true, [])

/-- An entry that makes `validate_zip_file` record an error. -/
def entryOffending (e : ZipEntryM) : Bool :=
  if (List.isSuffixOf ".x10".toList e.filename ||
      List.isSuffixOf ".X10".toList e.filename) && !e.is_dir then
    decide (e.file_size = 0) || decide (100 * 1024 * 1024 < e.file_size)
  else true

/-- Outcome of `VdvIngester.prepare`. -/
inductive PrepareOutcome
  | rejectedZip (errors : List (List Char × String))
  | rejectedValidation (msg : String)
  | prepared (tables : List VDV_Table_Name)
deriving DecidableEq, Repr

/-- vdv.py lines 219-257, `VdvIngester.prepare`: validate the zip file
(lines 234-238, returning `(False, error_map)` before anything is
extracted or any table examined), then extract and validate the table
set (lines 247-251), then return the UUID.  `progress_callback`
(lines 222, 228-229) is accepted but appears nowhere in the body, so
the list of fractions reported to it is empty on every path.  The
second component collects the values passed to the callback. -/
def VdvIngester_prepare (entries : List ZipEntryM)
    (headerNames : List VDV_Table_Name) (progress_callback : Bool) :
    PrepareOutcome × List ℚ :=
  match validate_zip_file entries with
  | (false, errs) => (.rejectedZip errs, [])
  | (true, _) =>
    match validate_input_data_vdv_451 headerNames with
    | .error m => (.rejectedValidation m, [])
    | .ok tables => (.prepared tables, [])

/-- vdv.py lines 259-654, `VdvIngester.ingest`, with the values passed to
`progress_callback` collected in the second component:
the parameter (line 259) is never referenced in the body. -/
def VdvIngester_ingest (s : DbSession) (body : List IngestStep)
    (progress_callback : Bool) : (DbSession × Option String) × List ℚ :=
  (vdvIngest s body, [])

/-! ## BASIS_VER_GUELTIGKEIT handling (vdv.py lines 1076-1091) -/

/-- One row of BASIS_VER_GUELTIGKEIT: a dataset version and the start of
its validity (a date, modelled as an integer day number). -/
structure BasisVerGueltigkeit where
  basis_version : Int
  ver_gueltigkeit : Int
deriving DecidableEq, Repr

/-- vdv.py lines 1076-1091: after decoding the BASIS_VER_GUELTIGKEIT
rows, the importer turns them into a set and raises unless exactly one
distinct entry remains; otherwise it returns the rows unchanged.  No
selection among versions happens anywhere in `ingest`. -/
def import_basis_ver_gueltigkeit (objects : List BasisVerGueltigkeit) :
    Except String (List BasisVerGueltigkeit) :=
  if objects.dedup.length ≠ 1 then
    .error "The table contains multiple distinct entries. Only one entry is allowed."
  else
    .ok objects

/-! ## Per-trip time accumulation and trip creation
(vdv.py lines 519-642) -/

/-- The fields of a REC_SEL record used by the trip loop. -/
structure RecSelM where
  basis_version : Int
  bereich_nr : Int
  onr_typ_nr : Int
  ort_nr : Int
  sel_ziel_typ : Int
  sel_ziel : Int
deriving DecidableEq, Repr

/-- A REC_FRT_HZT record (per-trip dwell): position key and dwell time
(microseconds). -/
structure RecFrtHztM where
  position_key : Int × Int × Int
  frt_hzt_zeit : Int
deriving DecidableEq, Repr

/-- An ORT_HZTF record (per-timing-group dwell): position key and dwell
time (microseconds). -/
structure OrtHztfM where
  position_key : Int × Int × Int
  hp_hzt : Int
deriving DecidableEq, Repr

/-- vdv.py lines 526-544 and 560-576: dwell duration at a place, with
the two-source fallback — the per-trip table wins when it has exactly
one matching row, else the per-timing-group table when it has exactly
one matching row, else zero. -/
def dwellDuration (frtHzts : List RecFrtHztM) (ortHztfs : List OrtHztfM)
    (pk : Int × Int × Int) : Int :=
  match frtHzts.filter (fun x => x.position_key == pk) with
  | [x] => x.frt_hzt_zeit
  | _ =>
    match ortHztfs.filter (fun x => x.position_key == pk) with
    | [y] => y.hp_hzt
    | _ => 0

/-- Accumulated state of the loop at vdv.py lines 519-579: arrival
offsets from local midnight, dwell durations, and the running elapsed
offset. -/
structure TripTimes where
  arrivals : List Int
  dwells : List Int
  elapsed : Int
deriving DecidableEq, Repr

/-- vdv.py lines 552-579: one loop iteration past the first-station
block — add the driving duration of the segment, record the arrival,
then resolve and add the dwell at the segment's destination. -/
def tripSegmentStep (frtHzts : List RecFrtHztM) (ortHztfs : List OrtHztfM)
    (acc : TripTimes) (seg : RecSelM × Int) : TripTimes :=
  let elapsed := acc.elapsed + seg.2
  let pk := (seg.1.basis_version, seg.1.sel_ziel_typ, seg.1.sel_ziel)
  let dw := dwellDuration frtHzts ortHztfs pk
  { arrivals := acc.arrivals ++ [elapsed],
    dwells := acc.dwells ++ [dw],
    elapsed := elapsed + dw }

/-- vdv.py lines 519-579: accumulate arrival and dwell times along the
route.  `fzts` are the driving durations (`sel_fzt`) aligned with the
segments; `frt_start` is the trip's start offset from midnight.  The
first iteration additionally records the first station (arrival at
`frt_start`, lines 525-550). -/
def computeTripTimes (recSels : List RecSelM) (fzts : List Int)
    (frtHzts : List RecFrtHztM) (ortHztfs : List OrtHztfM)
    (frt_start : Int) : TripTimes :=
  match recSels.zip fzts with
  | [] => ⟨[], [], frt_start⟩
  | s0 :: rest =>
    let pk0 := (s0.1.basis_version, s0.1.onr_typ_nr, s0.1.ort_nr)
    let dw0 := dwellDuration frtHzts ortHztfs pk0
    (s0 :: rest).foldl (tripSegmentStep frtHzts ortHztfs)
      ⟨[frt_start], [dw0], frt_start + dw0⟩

inductive TripTypeM
  | PASSENGER
  | EMPTY
deriving DecidableEq, Repr

/-- An assembled Trip with its stop times
(arrival time, dwell duration). -/
structure TripM where
  departure_time : Int
  arrival_time : Int
  stop_times : List (Int × Int)
  trip_type : TripTypeM
deriving DecidableEq, Repr

/-- One FIRMENKALENDER row: an operating date (abstract day index) and
its day-type. -/
structure FirmenkalenderM where
  betriebstag : Nat
  tagesart_nr : Int
deriving DecidableEq, Repr

/-- vdv.py lines 620-636: build the stop times of one trip — one per
route station, at `local_midnight + arrival_time_from_start[i]` with
dwell `dwell_durations[i]` — then repair identical arrival times with
`fix_identical_stop_times`. -/
def buildStopTimes (numStations : Nat) (midnight : Int) (tt : TripTimes) :
    List (Int × Int) :=
  let raw := (List.range numStations).map
    (fun i => (midnight + tt.arrivals.getD i 0, tt.dwells.getD i 0))
  (fix_identical_stop_times (raw.map Prod.fst)).zip (raw.map Prod.snd)

/-- vdv.py lines 584-642: for every FIRMENKALENDER row whose day-type
matches the trip's, create one Trip on that date — departure at local
midnight plus `frt_start`, arrival at local midnight plus the total
elapsed offset, PASSENGER iff `fahrtart_nr = 1` — unless the trip has
zero duration, which raises.  `localMidnight d` models
`tz.localize(datetime.combine(d, time(0, 0)))` in Europe/Berlin
(lines 606-608). -/
def buildTripsForRecFrt (firmenkalenders : List FirmenkalenderM)
    (localMidnight : Nat → Int) (tagesart_nr : Int) (fahrtart_nr : Int)
    (frt_start : Int) (numStations : Nat) (tt : TripTimes) :
    Except String (List TripM) :=
  firmenkalenders.foldlM
    (fun acc fk =>
      if fk.tagesart_nr = tagesart_nr then
        if frt_start ≠ tt.elapsed then
          let m := localMidnight fk.betriebstag
          pure (acc ++ [{ departure_time := m + frt_start,
                          arrival_time := m + tt.elapsed,
                          stop_times := buildStopTimes numStations m tt,
                          trip_type :=
                            if fahrtart_nr = 1 then TripTypeM.PASSENGER
                            else TripTypeM.EMPTY }])
        else throw "Trip has a duration of 0 seconds. Skipping."
      else pure acc)
    []

/-! # Theorems -/

example : fix_identical_stop_times [0, 0, 1] = [0, 0, 1] := by decide

example : fix_identical_stop_times [0, 0] = [-30000000, 0] := by decide

example : fix_identical_stop_times [0, 0, 0] = [-40000000, -20000000, 0] := by
  decide

example :
    fix_identical_stop_times [0, 0, 1000000] = [0, 500000, 1000000] := by
  decide

/-! ### Arithmetic facts about `pydiv` -/

theorem pydiv_spec (a b : Int) (hb : 0 < b) :
    (pydiv a b = a / b ∧ a % b * 2 ≤ b) ∨
      (pydiv a b = a / b + 1 ∧ b ≤ a % b * 2) := by
  simp only [pydiv, Int.fdiv_eq_ediv _ hb.le, Int.fmod_eq_emod _ hb.le,
    if_pos hb]
  split_ifs with h
  · rcases h with h | ⟨h, _⟩
    · exact Or.inr ⟨rfl, h.le⟩
    · exact Or.inr ⟨rfl, h.ge⟩
  · push_neg at h
    exact Or.inl ⟨rfl, h.1⟩

theorem pydiv_nonneg (a b : Int) (hb : 0 < b) (ha : 0 ≤ a) : 0 ≤ pydiv a b := by
  have hq : 0 ≤ a / b := Int.ediv_nonneg ha hb.le
  rcases pydiv_spec a b hb with ⟨he, _⟩ | ⟨he, _⟩ <;> omega

theorem pydiv_two_mul_le (a b : Int) (hb : 0 < b) :
    2 * b * pydiv a b ≤ 2 * a + b := by
  have hmod := Int.emod_nonneg a hb.ne'
  have hdm := Int.ediv_add_emod a b
  rcases pydiv_spec a b hb with ⟨he, hle⟩ | ⟨he, hge⟩ <;> rw [he] <;> nlinarith

theorem pydiv_pos (a b : Int) (hb : 0 < b) (hba : b < 2 * a) : 1 ≤ pydiv a b := by
  have ha : 0 < a := by omega
  have hq : 0 ≤ a / b := Int.ediv_nonneg ha.le hb.le
  have hdm := Int.ediv_add_emod a b
  rcases pydiv_spec a b hb with ⟨he, hle⟩ | ⟨he, _⟩
  · rw [he]
    rcases hq.lt_or_eq with h | h
    · omega
    · exfalso
      have : a % b = a := by nlinarith
      omega
  · omega

theorem pydiv_mul_pred_lt (d k : Int) (hk : 2 ≤ k) (hd : k * (k - 1) < 2 * d) :
    (k - 1) * pydiv d k < d := by
  have hkpos : 0 < k := by omega
  have hdpos : 0 < d := by nlinarith
  have ho : 0 ≤ pydiv d k := pydiv_nonneg d k hkpos hdpos.le
  have hup := pydiv_two_mul_le d k hkpos
  nlinarith

/-- Propagation bound: the total forward shift of a duplicate group,
`(k-1)*offset`, eats at most all but 4951 microseconds of the following
gap `da`, provided `da` is at least one second and the group has at most
100 members. -/
theorem pydiv_shift_slack (d da k o : Int) (hk : 2 ≤ k) (hk100 : k ≤ 100)
    (ho : 0 ≤ o) (hup : 2 * k * o ≤ 2 * d + k) (hdle : d ≤ da)
    (hda : 1000000 ≤ da) : (k - 1) * o + 4951 ≤ da := by
  nlinarith

/-! ### List helpers -/

theorem getD_set (l : List Int) (i j : Nat) (a : Int) :
    (l.set i a).getD j 0 = if j = i ∧ i < l.length then a else l.getD j 0 := by
  induction l generalizing i j with
  | nil => simp
  | cons x xs ih =>
    cases i with
    | zero =>
      cases j with
      | zero => simp
      | succ j' => simp [Nat.succ_ne_zero]
    | succ i' =>
      cases j with
      | zero => simp
      | succ j' =>
        simp only [List.set_cons_succ, List.getD_cons_succ, ih, List.length_cons]
        omega

theorem getD_drop (l : List Int) (n j : Nat) :
    (l.drop n).getD j 0 = l.getD (n + j) 0 := by
  induction l generalizing n with
  | nil => simp
  | cons x xs ih =>
    cases n with
    | zero => simp
    | succ n' =>
      simpa [Nat.succ_add] using ih n'

theorem getLastD_range' (k s : Nat) (d : Nat) :
    (List.range' s k).getLastD d = if k = 0 then d else s + k - 1 := by
  induction k generalizing s d with
  | zero => rfl
  | succ k' ih =>
    rw [List.range'_succ, List.getLastD_cons, ih]
    rcases Nat.eq_zero_or_pos k' with h | h
    · subst h; simp
    · rw [if_neg (by omega), if_neg (by omega)]
      omega

theorem shiftFold_length (o : Int) (ps : List (Nat × Nat)) :
    ∀ ts : List Int,
      (ps.foldl (fun acc q => acc.set q.2 (acc.getD q.2 0 + q.1 * o)) ts).length
        = ts.length := by
  induction ps with
  | nil => intro ts; rfl
  | cons q ps ih => intro ts; rw [List.foldl_cons, ih, List.length_set]

theorem shiftGroup_length (ts : List Int) (is : List Nat) (o : Int) :
    (shiftGroup ts is o).length = ts.length :=
  shiftFold_length o is.enum ts

theorem unshiftGroup_length (is : List Nat) (M : Int) :
    ∀ ts : List Int, (unshiftGroup ts is M).length = ts.length := by
  induction is with
  | nil => intro ts; rfl
  | cons i is ih =>
    intro ts
    show (unshiftGroup (ts.set i (ts.getD i 0 - M)) is M).length = ts.length
    rw [ih, List.length_set]

theorem shiftFold_getD (o : Int) :
    ∀ (k p e : Nat) (ts : List Int), p + k ≤ ts.length → ∀ j,
      ((List.enumFrom e (List.range' p k)).foldl
          (fun acc q => acc.set q.2 (acc.getD q.2 0 + q.1 * o)) ts).getD j 0 =
        if p ≤ j ∧ j < p + k then ts.getD j 0 + ((e + (j - p) : Nat) : Int) * o
        else ts.getD j 0 := by
  intro k
  induction k with
  | zero =>
    intro p e ts _ j
    rw [if_neg (by omega)]
    rfl
  | succ k ih =>
    intro p e ts hlen j
    rw [List.range'_succ,
      show List.enumFrom e (p :: List.range' (p + 1) k)
        = (e, p) :: List.enumFrom (e + 1) (List.range' (p + 1) k) from rfl,
      List.foldl_cons]
    have hlen1 : p + 1 + k ≤ (ts.set p (ts.getD p 0 + (e : Int) * o)).length := by
      rw [List.length_set]; omega
    rw [ih (p + 1) (e + 1) _ hlen1 j]
    by_cases h1 : p + 1 ≤ j ∧ j < p + 1 + k
    · rw [if_pos h1, if_pos (show p ≤ j ∧ j < p + (k + 1) by omega)]
      rw [getD_set, if_neg (by omega)]
      have he : e + 1 + (j - (p + 1)) = e + (j - p) := by omega
      rw [he]
    · by_cases hj : j = p
      · rw [if_neg h1, if_pos (show p ≤ j ∧ j < p + (k + 1) by omega)]
        rw [getD_set, if_pos ⟨hj, by omega⟩]
        rw [show j - p = 0 by omega, Nat.add_zero, hj]
      · rw [if_neg h1, if_neg (by omega)]
        rw [getD_set, if_neg (by intro hc; exact hj hc.1)]

theorem shiftGroup_getD (ts : List Int) (p k : Nat) (o : Int)
    (hlen : p + k ≤ ts.length) (j : Nat) :
    (shiftGroup ts (List.range' p k) o).getD j 0 =
      if p ≤ j ∧ j < p + k then ts.getD j 0 + ((j - p : Nat) : Int) * o
      else ts.getD j 0 := by
  have h := shiftFold_getD o k p 0 ts hlen j
  simpa [shiftGroup] using h

theorem unshiftGroup_getD (M : Int) :
    ∀ (k p : Nat) (ts : List Int), p + k ≤ ts.length → ∀ j,
      (unshiftGroup ts (List.range' p k) M).getD j 0 =
        if p ≤ j ∧ j < p + k then ts.getD j 0 - M else ts.getD j 0 := by
  intro k
  induction k with
  | zero =>
    intro p ts _ j
    rw [if_neg (by omega)]
    rfl
  | succ k ih =>
    intro p ts hlen j
    rw [List.range'_succ]
    show (unshiftGroup (ts.set p (ts.getD p 0 - M)) (List.range' (p + 1) k) M).getD j 0 = _
    have hlen1 : p + 1 + k ≤ (ts.set p (ts.getD p 0 - M)).length := by
      rw [List.length_set]; omega
    rw [ih (p + 1) _ hlen1 j]
    by_cases h1 : p + 1 ≤ j ∧ j < p + 1 + k
    · rw [if_pos h1, if_pos (show p ≤ j ∧ j < p + (k + 1) by omega)]
      rw [getD_set, if_neg (by omega)]
    · by_cases hj : j = p
      · rw [if_neg h1, if_pos (show p ≤ j ∧ j < p + (k + 1) by omega)]
        rw [getD_set, if_pos ⟨hj, by omega⟩, hj]
      · rw [if_neg h1, if_neg (by omega)]
        rw [getD_set, if_neg (by intro hc; exact hj hc.1)]

/-- Evaluation of `processGroup` on one duplicate group whose indices
form the contiguous range `[p, p+k)`: members are shifted forward by
`(j-p)*offset`, and when the group ends at the last position everything
in the group is afterwards shifted back by `(k-1)*offset`. -/
theorem processGroup_run_getD (ts : List Int) (n : Nat) (hn : n = ts.length)
    (p k : Nat) (v : Int)
    (db da o : Int) (hk : 0 < k) (hle : p + k ≤ ts.length)
    (hdb : db = if p ≠ 0 then ts.getD p 0 - ts.getD (p - 1) 0 else 60000000)
    (hda : da = if p + k ≠ ts.length then
        ts.getD (p + k) 0 - ts.getD (p + k - 1) 0 else 60000000)
    (ho : o = pydiv (min db da) (k : Int)) (S : Int)
    (hS : S = if p + k = ts.length then ((k - 1 : Nat) : Int) * o else 0)
    (j : Nat) :
    (processGroup n ts (v, List.range' p k)).getD j 0 =
      if p ≤ j ∧ j < p + k then ts.getD j 0 + ((j - p : Nat) : Int) * o - S
      else ts.getD j 0 := by
  subst hn
  subst hS
  obtain ⟨k', rfl⟩ : ∃ k', k = k' + 1 := ⟨k - 1, by omega⟩
  rw [List.range'_succ]
  simp only [processGroup]
  have hlast : (List.range' (p + 1) k').getLastD p = p + k' := by
    rw [getLastD_range']
    split_ifs <;> omega
  rw [hlast]
  have hiff : (p + k' ≠ ts.length - 1) ↔ (p + (k' + 1) ≠ ts.length) := by omega
  have hlen1 : (p + k' + 1) = p + (k' + 1) := by omega
  simp only [hiff, hlen1, List.length_cons, List.length_range']
  rw [← hdb]
  rw [show (if p + (k' + 1) ≠ ts.length then
      ts.getD (p + (k' + 1)) 0 - ts.getD (p + k') 0 else 60000000) = da by
    rw [hda]; rcases eq_or_ne (p + (k' + 1)) ts.length with h | h
    · rw [if_neg (by omega), if_neg (by omega)]
    · rw [if_pos h, if_pos h, show p + (k' + 1) - 1 = p + k' by omega]]
  rw [← List.range'_succ, ← ho]
  simp only [Nat.add_sub_cancel]
  have hsl : p + (k' + 1) ≤ (shiftGroup ts (List.range' p (k' + 1)) o).length := by
    rw [shiftGroup_length]; omega
  by_cases hend : p + k' = ts.length - 1
  · have hend' : p + (k' + 1) = ts.length := by omega
    rw [if_pos hend, if_pos hend']
    rw [unshiftGroup_getD _ (k' + 1) p _ hsl j]
    rw [shiftGroup_getD ts p (k' + 1) o hle j]
    split_ifs with h
    · rw [show ((k' + 1 : Nat) : Int) - 1 = ((k' : Nat) : Int) by push_cast; ring]
    · rfl
  · have hend' : p + (k' + 1) ≠ ts.length := by omega
    rw [if_neg hend, if_neg hend']
    rw [shiftGroup_getD ts p (k' + 1) o hle j]
    split_ifs with h
    · rw [sub_zero]
    · rfl

/-! ### `buildGroups` of a sorted list is its run decomposition -/

theorem runLen_le (t : Int) : ∀ xs : List Int, runLen t xs ≤ xs.length := by
  intro xs
  induction xs with
  | nil => simp [runLen]
  | cons x xs ih =>
    simp only [runLen, List.length_cons]
    split <;> omega

theorem runLen_getD (t : Int) :
    ∀ (xs : List Int) (j : Nat), j < runLen t xs → xs.getD j 0 = t := by
  intro xs
  induction xs with
  | nil => intro j h; simp [runLen] at h
  | cons x xs ih =>
    intro j h
    simp only [runLen] at h
    split at h
    · cases j with
      | zero => simpa using ‹x = t›
      | succ j' => exact ih j' (by omega)
    · omega

theorem runLen_getD_ne (t : Int) :
    ∀ xs : List Int, runLen t xs < xs.length →
      xs.getD (runLen t xs) 0 ≠ t := by
  intro xs
  induction xs with
  | nil => intro h; simp [runLen] at h
  | cons x xs ih =>
    intro h
    by_cases hx : x = t
    · simp only [runLen, if_pos hx, List.length_cons] at h
      simp only [runLen, if_pos hx, List.getD_cons_succ]
      exact ih (by omega)
    · simp only [runLen, if_neg hx, List.getD_cons_zero]
      exact hx

theorem insertGroup_not_mem :
    ∀ (gs : List (Int × List Nat)) (t : Int) (i : Nat),
      t ∉ gs.map Prod.fst → insertGroup gs t i = gs ++ [(t, [i])] := by
  intro gs
  induction gs with
  | nil => intro t i _; rfl
  | cons g gs ih =>
    intro t i hmem
    obtain ⟨t', is⟩ := g
    simp only [List.map_cons, List.mem_cons, not_or] at hmem
    simp only [insertGroup, if_neg hmem.1]
    rw [ih t i hmem.2]
    rfl

theorem insertGroup_append_last :
    ∀ (gs : List (Int × List Nat)) (t : Int) (is : List Nat) (i : Nat),
      t ∉ gs.map Prod.fst →
      insertGroup (gs ++ [(t, is)]) t i = gs ++ [(t, is ++ [i])] := by
  intro gs
  induction gs with
  | nil =>
    intro t is i _
    simp [insertGroup]
  | cons g gs ih =>
    intro t is i hmem
    obtain ⟨t', is'⟩ := g
    simp only [List.map_cons, List.mem_cons, not_or] at hmem
    simp only [List.cons_append, insertGroup, if_neg hmem.1, List.append_eq]
    rw [ih t is i hmem.2]

theorem buildGroups_run_step (t : Int) (gs : List (Int × List Nat))
    (ht : t ∉ gs.map Prod.fst) :
    ∀ (xs : List Int) (is : List Nat) (j : Nat),
      (List.enumFrom j xs).foldl (fun acc p => insertGroup acc p.2 p.1)
          (gs ++ [(t, is)]) =
        (List.enumFrom (j + runLen t xs) (xs.drop (runLen t xs))).foldl
          (fun acc p => insertGroup acc p.2 p.1)
          (gs ++ [(t, is ++ List.range' j (runLen t xs))]) := by
  intro xs
  induction xs with
  | nil =>
    intro is j
    simp [runLen]
  | cons x xs ih =>
    intro is j
    by_cases hx : x = t
    · subst hx
      rw [show List.enumFrom j (x :: xs) = (j, x) :: List.enumFrom (j + 1) xs from rfl,
        List.foldl_cons]
      rw [show insertGroup (gs ++ [(x, is)]) x j = gs ++ [(x, is ++ [j])] from
        insertGroup_append_last gs x is j ht]
      rw [ih (is ++ [j]) (j + 1)]
      rw [show runLen x (x :: xs) = runLen x xs + 1 from by simp [runLen]]
      rw [List.drop_succ_cons,
        show j + (runLen x xs + 1) = j + 1 + runLen x xs from by omega,
        List.range'_succ, List.append_assoc, List.singleton_append]
    · rw [show runLen t (x :: xs) = 0 from by simp [runLen, hx]]
      simp

theorem buildGroups_go (ts : List Int)
    (hmono : ∀ a b : Nat, a ≤ b → b < ts.length → ts.getD a 0 ≤ ts.getD b 0) :
    ∀ (n i : Nat) (gs : List (Int × List Nat)), ts.length - i ≤ n →
      i ≤ ts.length →
      (∀ key ∈ gs.map Prod.fst, ∀ j, i ≤ j → j < ts.length →
        key < ts.getD j 0) →
      ∃ rs, (List.enumFrom i (ts.drop i)).foldl
            (fun acc p => insertGroup acc p.2 p.1) gs = gs ++ rs ∧
          RunsWF ts i rs := by
  intro n
  induction n with
  | zero =>
    intro i gs hn hi _
    have hieq : i = ts.length := by omega
    subst hieq
    rw [List.drop_length]
    exact ⟨[], by simp, RunsWF.nil⟩
  | succ n ih =>
    intro i gs hn hi hkeys
    rcases eq_or_lt_of_le hi with hieq | hlt
    · subst hieq
      rw [List.drop_length]
      exact ⟨[], by simp, RunsWF.nil⟩
    · have hdrop : ts.drop i = ts.getD i 0 :: ts.drop (i + 1) := by
        rw [List.drop_eq_getElem_cons hlt, List.getD_eq_getElem _ _ hlt]
      have ht : ts.getD i 0 ∉ gs.map Prod.fst := by
        intro hmem
        exact absurd (hkeys _ hmem i le_rfl hlt) (lt_irrefl _)
      have hmlen : runLen (ts.getD i 0) (ts.drop (i + 1)) ≤ ts.length - (i + 1) := by
        have := runLen_le (ts.getD i 0) (ts.drop (i + 1))
        rwa [List.length_drop] at this
      set t := ts.getD i 0 with htdef
      set m := runLen t (ts.drop (i + 1)) with hmdef
      have hval : ∀ j, j < m + 1 → ts.getD (i + j) 0 = t := by
        intro j hj
        cases j with
        | zero => simp [htdef]
        | succ j' =>
          have := runLen_getD t (ts.drop (i + 1)) j' (by omega)
          rw [getD_drop] at this
          rw [show i + (j' + 1) = i + 1 + j' from by omega]
          exact this
      have hnext : i + (m + 1) < ts.length → t < ts.getD (i + (m + 1)) 0 := by
        intro hlen2
        have hne : ts.getD (i + 1 + m) 0 ≠ t := by
          have hmlt : m < (ts.drop (i + 1)).length := by
            rw [List.length_drop]; omega
          have := runLen_getD_ne t (ts.drop (i + 1)) hmlt
          rwa [getD_drop] at this
        have hge : t ≤ ts.getD (i + 1 + m) 0 :=
          hmono i (i + 1 + m) (by omega) (by omega)
        rw [show i + (m + 1) = i + 1 + m from by omega]
        exact lt_of_le_of_ne hge (Ne.symm hne)
      have hkeys' : ∀ key ∈ (gs ++ [(t, List.range' i (m + 1))]).map Prod.fst,
          ∀ j, i + 1 + m ≤ j → j < ts.length → key < ts.getD j 0 := by
        intro key hkey j hj hjlen
        rw [List.map_append] at hkey
        rcases List.mem_append.mp hkey with hold | hnew
        · exact hkeys key hold j (by omega) hjlen
        · simp only [List.map_cons, List.map_nil, List.mem_singleton] at hnew
          subst hnew
          have h1 : t < ts.getD (i + 1 + m) 0 := by
            have h2 := hnext (by omega)
            rwa [show i + (m + 1) = i + 1 + m from by omega] at h2
          exact lt_of_lt_of_le h1 (hmono (i + 1 + m) j hj hjlen)
      obtain ⟨rs', hfold, hwf⟩ := ih (i + 1 + m)
        (gs ++ [(t, List.range' i (m + 1))]) (by omega) (by omega) hkeys'
      refine ⟨(t, List.range' i (m + 1)) :: rs', ?_, ?_⟩
      · rw [hdrop,
          show List.enumFrom i (t :: ts.drop (i + 1))
            = (i, t) :: List.enumFrom (i + 1) (ts.drop (i + 1)) from rfl,
          List.foldl_cons]
        rw [show insertGroup gs t i = gs ++ [(t, [i])] from
          insertGroup_not_mem gs t i ht]
        rw [buildGroups_run_step t gs ht (ts.drop (i + 1)) [i] (i + 1)]
        rw [List.drop_drop, ← hmdef]
        rw [show ([i] : List Nat) ++ List.range' (i + 1) m
          = List.range' i (m + 1) from by
            rw [List.range'_succ, List.singleton_append]]
        rw [hfold, List.append_assoc, List.singleton_append]
      · refine RunsWF.cons i (m + 1) t rs' (by omega) (by omega) hval hnext ?_
        rwa [show i + (m + 1) = i + 1 + m from by omega]

theorem buildGroups_runsWF (ts : List Int)
    (hmono : ∀ a b : Nat, a ≤ b → b < ts.length → ts.getD a 0 ≤ ts.getD b 0) :
    RunsWF ts 0 (buildGroups ts) := by
  obtain ⟨rs, heq, hwf⟩ := buildGroups_go ts hmono ts.length 0 []
    (by omega) (by omega) (by simp)
  have hbg : buildGroups ts = rs := by
    unfold buildGroups
    rw [List.enum_eq_enumFrom, show ts = ts.drop 0 from (List.drop_zero ts).symm]
    simpa using heq
  rw [hbg]
  exact hwf

theorem chainLe_getD_mono (ts : List Int) (hc : List.Chain' (· ≤ ·) ts) :
    ∀ a b : Nat, a ≤ b → b < ts.length → ts.getD a 0 ≤ ts.getD b 0 := by
  have hp : List.Pairwise (· ≤ ·) ts := List.chain'_iff_pairwise.mp hc
  intro a b hab hb
  rcases eq_or_lt_of_le hab with rfl | hlt
  · exact le_rfl
  · rw [List.getD_eq_getElem _ _ (lt_trans hlt hb), List.getD_eq_getElem _ _ hb]
    exact List.pairwise_iff_get.mp hp ⟨a, lt_trans hlt hb⟩ ⟨b, hb⟩ hlt

theorem processGroup_length (n : Nat) (ts : List Int) (g : Int × List Nat) :
    (processGroup n ts g).length = ts.length := by
  obtain ⟨v, is⟩ := g
  cases is with
  | nil => rfl
  | cons i0 restIdx =>
    simp only [processGroup]
    split
    · rw [unshiftGroup_length, shiftGroup_length]
    · rw [shiftGroup_length]

/-- Invariant induction over the runs: processing the duplicate groups
left to right keeps the already-processed prefix strictly increasing and
leaves at least 4951 microseconds of slack below the next run's value,
provided adjacent distinct values of the input differ by at least one
second and the list has at most 100 entries. -/
theorem fixGroups_strict_go (ts : List Int) (hn100 : ts.length ≤ 100)
    (hgap : ∀ i : Nat, i + 1 < ts.length →
      ts.getD i 0 = ts.getD (i + 1) 0 ∨
        ts.getD i 0 + 1000000 ≤ ts.getD (i + 1) 0) :
    ∀ {p : Nat} {rs : List (Int × List Nat)}, RunsWF ts p rs →
      ∀ cur : List Int, cur.length = ts.length →
      (∀ j, p ≤ j → cur.getD j 0 = ts.getD j 0) →
      (∀ i, i + 1 < p → cur.getD i 0 < cur.getD (i + 1) 0) →
      (0 < p → p < ts.length → cur.getD (p - 1) 0 + 4951 ≤ ts.getD p 0) →
      ∀ i, i + 1 < ts.length →
        ((rs.filter (fun g => 1 < g.2.length)).foldl
            (processGroup ts.length) cur).getD i 0 <
          ((rs.filter (fun g => 1 < g.2.length)).foldl
            (processGroup ts.length) cur).getD (i + 1) 0 := by
  intro p rs hwf
  induction hwf with
  | nil =>
    intro cur _ _ hpre _ i hi
    simp only [List.filter_nil, List.foldl_nil]
    exact hpre i hi
  | cons p k v rs hk hle hval hnext hwf' ih =>
    intro cur hlen hsuf hpre hbnd i hi
    have htsp : ts.getD p 0 = v := by simpa using hval 0 hk
    have hcurp : cur.getD p 0 = v := by rw [hsuf p le_rfl]; exact htsp
    rw [List.filter_cons]
    by_cases hk1 : 1 < k
    · -- a real duplicate group
      rw [if_pos (by simp [List.length_range', hk1]), List.foldl_cons]
      have hcurlast : cur.getD (p + k - 1) 0 = v := by
        rw [hsuf _ (by omega)]
        have h1 := hval (k - 1) (by omega)
        rwa [show p + (k - 1) = p + k - 1 from by omega] at h1
      set db : Int :=
        if p ≠ 0 then cur.getD p 0 - cur.getD (p - 1) 0 else 60000000
        with hdbdef
      set da : Int :=
        if p + k ≠ cur.length then
          cur.getD (p + k) 0 - cur.getD (p + k - 1) 0 else 60000000
        with hdadef
      set o : Int := pydiv (min db da) (k : Int) with hodef
      set Ssub : Int :=
        if p + k = cur.length then ((k - 1 : Nat) : Int) * o else 0
        with hSdef
      have hrun := fun j => processGroup_run_getD cur ts.length hlen.symm
        p k v db da o hk (by omega) hdbdef hdadef hodef Ssub hSdef j
      have hdb4951 : 4951 ≤ db := by
        rw [hdbdef]
        by_cases hp0 : p = 0
        · rw [if_neg (by omega)]; omega
        · rw [if_pos hp0, hcurp]
          have hb := hbnd (by omega) (by omega)
          rw [htsp] at hb
          omega
      have hdagap : p + k < ts.length → 1000000 ≤ da := by
        intro hklen
        rw [hdadef, if_pos (by omega), hcurlast, hsuf (p + k) (by omega)]
        have hvlt : v < ts.getD (p + k) 0 := hnext hklen
        have hg := hgap (p + k - 1) (by omega)
        rw [show p + k - 1 + 1 = p + k from by omega] at hg
        have htl : ts.getD (p + k - 1) 0 = v := by
          have h1 := hval (k - 1) (by omega)
          rwa [show p + (k - 1) = p + k - 1 from by omega] at h1
        rw [htl] at hg
        rcases hg with he | hge
        · omega
        · omega
      have hda4951 : 4951 ≤ da := by
        by_cases hend : p + k = ts.length
        · rw [hdadef, if_neg (by omega)]; omega
        · have := hdagap (by omega)
          omega
      have hd4951 : 4951 ≤ min db da := le_min hdb4951 hda4951
      have hk2 : (2 : Int) ≤ (k : Int) := by exact_mod_cast (by omega : 2 ≤ k)
      have hkle : (k : Int) ≤ 100 := by exact_mod_cast (by omega : k ≤ 100)
      have hkk : (k : Int) * ((k : Int) - 1) < 2 * min db da := by nlinarith
      have ho1 : (1 : Int) ≤ o := by
        rw [hodef]
        exact pydiv_pos _ _ (by omega) (by nlinarith)
      have ho0 : (0 : Int) ≤ o := by omega
      have hup : 2 * (k : Int) * o ≤ 2 * min db da + (k : Int) := by
        rw [hodef]
        exact pydiv_two_mul_le _ _ (by omega)
      have hlt2 : ((k : Int) - 1) * o < min db da := by
        rw [hodef]
        exact pydiv_mul_pred_lt _ _ hk2 hkk
      -- the state after processing this group
      set cur' := processGroup ts.length cur (v, List.range' p k) with hcur'
      have hlen' : cur'.length = ts.length := by
        rw [hcur', processGroup_length, hlen]
      apply ih cur' hlen'
      · -- suffix agreement from p + k on
        intro j hj
        rw [hcur', hrun j, if_neg (by omega)]
        exact hsuf j (by omega)
      · -- the prefix up to p + k is strictly increasing
        intro i2 hi2
        rcases Nat.lt_or_ge (i2 + 1) p with hcase | hcase
        · rw [hcur', hrun i2, if_neg (by omega), hrun (i2 + 1), if_neg (by omega)]
          exact hpre i2 hcase
        · rcases Nat.lt_or_ge i2 p with hcase2 | hcase2
          · -- i2 + 1 = p : the boundary pair
            have hi2p : i2 + 1 = p := by omega
            rw [hcur', hrun i2, if_neg (by omega), hrun (i2 + 1), if_pos (by omega)]
            rw [hi2p, hcurp, show p - p = 0 from by omega]
            simp only [Nat.cast_zero, zero_mul, add_zero]
            have hbp := hbnd (by omega) (by omega)
            rw [htsp] at hbp
            have hi2e : i2 = p - 1 := by omega
            rw [hi2e]
            rw [hSdef]
            split_ifs with hendc
            · have hdbv : db = v - cur.getD (p - 1) 0 := by
                rw [hdbdef, if_pos (by omega), hcurp]
              have hko : ((k - 1 : Nat) : Int) * o < db := by
                rw [show ((k - 1 : Nat) : Int) = (k : Int) - 1 from by push_cast; omega]
                exact lt_of_lt_of_le hlt2 (min_le_left _ _)
              omega
            · omega
          · -- both inside the run
            rw [hcur', hrun i2, if_pos (by omega), hrun (i2 + 1), if_pos (by omega)]
            have hva : cur.getD i2 0 = v := by
              rw [hsuf i2 (by omega)]
              have h1 := hval (i2 - p) (by omega)
              rwa [show p + (i2 - p) = i2 from by omega] at h1
            have hvb : cur.getD (i2 + 1) 0 = v := by
              rw [hsuf (i2 + 1) (by omega)]
              have h1 := hval (i2 + 1 - p) (by omega)
              rwa [show p + (i2 + 1 - p) = i2 + 1 from by omega] at h1
            rw [hva, hvb, show i2 + 1 - p = (i2 - p) + 1 from by omega]
            push_cast
            linarith
      · -- slack before the next run
        intro _ hplen
        have hnotend : ¬ (p + k = cur.length) := by omega
        have hS0 : Ssub = 0 := by rw [hSdef, if_neg hnotend]
        rw [hcur', hrun (p + k - 1), if_pos (by omega), hS0]
        rw [show p + k - 1 - p = k - 1 from by omega, hcurlast, sub_zero]
        have hslack : ((k : Int) - 1) * o + 4951 ≤ da :=
          pydiv_shift_slack (min db da) da (k : Int) o hk2 hkle ho0 hup
            (min_le_right _ _) (hdagap hplen)
        have hdav : da = ts.getD (p + k) 0 - v := by
          rw [hdadef, if_pos (by omega), hcurlast, hsuf (p + k) (by omega)]
        rw [show ((k - 1 : Nat) : Int) = (k : Int) - 1 from by push_cast; omega]
        omega
      · exact hi
    · -- a singleton run: filtered out, nothing happens
      rw [if_neg (by simp [List.length_range']; omega)]
      have hkeq : k = 1 := by omega
      apply ih cur hlen
      · intro j hj
        exact hsuf j (by omega)
      · intro i2 hi2
        rcases Nat.lt_or_ge (i2 + 1) p with hcase | hcase
        · exact hpre i2 hcase
        · have hi2p : i2 + 1 = p := by omega
          have hbp := hbnd (by omega) (by omega)
          rw [htsp] at hbp
          rw [hi2p, hcurp]
          have hi2e : i2 = p - 1 := by omega
          rw [hi2e]
          omega
      · intro _ hp1len
        rw [show p + k - 1 = p from by omega, hcurp]
        have hvlt : v < ts.getD (p + k) 0 := hnext (by omega)
        have hg := hgap (p + k - 1) (by omega)
        rw [show p + k - 1 + 1 = p + k from by omega] at hg
        rw [show p + k - 1 = p from by omega, htsp] at hg
        rcases hg with he | hge
        · omega
        · omega
      · exact hi

theorem foldl_processGroup_length (n : Nat) :
    ∀ (gs : List (Int × List Nat)) (cur : List Int),
      (gs.foldl (processGroup n) cur).length = cur.length := by
  intro gs
  induction gs with
  | nil => intro cur; rfl
  | cons g gs ih =>
    intro cur
    rw [List.foldl_cons, ih, processGroup_length]

theorem fix_identical_stop_times_length (ts : List Int) :
    (fix_identical_stop_times ts).length = ts.length :=
  foldl_processGroup_length ts.length (dupGroups ts) ts

/-- After the processed prefix reaches the end, index `ts.length - 1` has
never been moved: a group not containing the last position leaves it
untouched, and a group containing it shifts it forward and back by the
same amount. -/
theorem fixGroups_last_go (ts : List Int) :
    ∀ {p : Nat} {rs : List (Int × List Nat)}, RunsWF ts p rs →
      ∀ cur : List Int, cur.length = ts.length →
        ((rs.filter (fun g => 1 < g.2.length)).foldl
            (processGroup ts.length) cur).getD (ts.length - 1) 0 =
          cur.getD (ts.length - 1) 0 := by
  intro p rs hwf
  induction hwf with
  | nil =>
    intro cur _
    simp
  | cons p k v rs hk hle hval hnext hwf' ih =>
    intro cur hlen
    rw [List.filter_cons]
    by_cases hk1 : 1 < k
    · rw [if_pos (by simp [List.length_range', hk1]), List.foldl_cons]
      rw [ih _ (by rw [processGroup_length]; exact hlen)]
      have hrun := fun j => processGroup_run_getD cur ts.length hlen.symm
        p k v _ _ _ hk (by omega) rfl rfl rfl _ rfl j
      by_cases hend : p + k = ts.length
      · rw [hrun (ts.length - 1), if_pos (by omega)]
        rw [if_pos (show p + k = cur.length from by omega)]
        rw [show ts.length - 1 - p = k - 1 from by omega]
        ring
      · rw [hrun (ts.length - 1), if_neg (by omega)]
    · rw [if_neg (by simp [List.length_range']; omega)]
      exact ih cur hlen

/-- Runs strictly after the first position never touch index 0. -/
theorem fixGroups_first_go (ts : List Int) :
    ∀ {p : Nat} {rs : List (Int × List Nat)}, RunsWF ts p rs → 1 ≤ p →
      ∀ cur : List Int, cur.length = ts.length →
        ((rs.filter (fun g => 1 < g.2.length)).foldl
            (processGroup ts.length) cur).getD 0 0 = cur.getD 0 0 := by
  intro p rs hwf
  induction hwf with
  | nil =>
    intro _ cur _
    simp
  | cons p k v rs hk hle hval hnext hwf' ih =>
    intro hp cur hlen
    rw [List.filter_cons]
    by_cases hk1 : 1 < k
    · rw [if_pos (by simp [List.length_range', hk1]), List.foldl_cons]
      rw [ih (by omega) _ (by rw [processGroup_length]; exact hlen)]
      have hrun := processGroup_run_getD cur ts.length hlen.symm
        p k v _ _ _ hk (by omega) rfl rfl rfl _ rfl 0
      rw [hrun, if_neg (by omega)]
    · rw [if_neg (by simp [List.length_range']; omega)]
      exact ih (by omega) cur hlen

/-- When the input is not entirely one duplicate group, the first group
(if it is a duplicate group at all) does not reach the last position,
so index 0 is only ever shifted by `0 * offset`. -/
theorem fixGroups_first_go0 (ts : List Int) :
    ∀ {rs : List (Int × List Nat)}, RunsWF ts 0 rs →
      ts.getD 0 0 ≠ ts.getD (ts.length - 1) 0 →
      ∀ cur : List Int, cur.length = ts.length →
        ((rs.filter (fun g => 1 < g.2.length)).foldl
            (processGroup ts.length) cur).getD 0 0 = cur.getD 0 0 := by
  intro rs hwf
  generalize hp : (0 : Nat) = p at hwf
  induction hwf with
  | nil =>
    intro _ cur _
    simp
  | cons p k v rs hk hle hval hnext hwf' _ =>
    intro hne cur hlen
    subst hp
    rw [List.filter_cons]
    by_cases hk1 : 1 < k
    · rw [if_pos (by simp [List.length_range', hk1]), List.foldl_cons]
      rw [fixGroups_first_go ts hwf' (by omega) _
        (by rw [processGroup_length]; exact hlen)]
      have hrun := processGroup_run_getD cur ts.length hlen.symm
        0 k v _ _ _ hk (by omega) rfl rfl rfl _ rfl 0
      rw [hrun, if_pos ⟨le_rfl, by omega⟩]
      have hkne : ¬ (0 + k = cur.length) := by
        intro hkeq
        have h0 : ts.getD 0 0 = v := by simpa using hval 0 hk
        have hl : ts.getD (ts.length - 1) 0 = v := by
          have h1 := hval (k - 1) (by omega)
          rwa [show 0 + (k - 1) = ts.length - 1 from by omega] at h1
        exact hne (by rw [h0, hl])
      rw [if_neg hkne, sub_zero, show ((0 - 0 : Nat) : Int) = 0 from rfl,
        zero_mul, add_zero]
    · rw [if_neg (by simp [List.length_range']; omega)]
      exact fixGroups_first_go ts hwf' (by omega) cur hlen

/-- C2, counterexample.  The claim states that for EVERY list of
StopTimes sorted by non-decreasing arrival time, after
`fix_identical_stop_times` returns the arrival times are strictly
increasing at every adjacent pair, any violation being raised as a fatal
error.  On the sorted input `[0, 0, 1]` (microseconds) the computed
offset is `timedelta(microseconds=1) / 2`, which Python's
round-half-to-even division turns into zero; the duplicate pair is left
untouched, the result is not strictly increasing, and the function —
which contains no post-condition check at all — returns normally. -/
theorem fix_identical_stop_times_not_strict_cex :
    List.Chain' (· ≤ ·) ([0, 0, 1] : List Int) ∧
      fix_identical_stop_times [0, 0, 1] = [0, 0, 1] ∧
      ¬ List.Chain' (· < ·) (fix_identical_stop_times [0, 0, 1]) := by
  refine ⟨by norm_num [List.chain'_cons], by decide, ?_⟩
  rw [show fix_identical_stop_times [0, 0, 1] = [0, 0, 1] from by decide]
  norm_num [List.chain'_cons]

/-- C2, amended.  For every list of stop-time arrivals sorted by
non-decreasing time, with at most 100 entries, in which any two adjacent
DISTINCT arrival times differ by at least one second (the native
resolution of VDV 452 timing data), the arrival times are strictly
increasing at every adjacent pair after `fix_identical_stop_times`
returns.  (No internal-consistency error exists in the function; on
inputs with sub-second collisions the non-strict result of the
counterexample is returned silently.) -/
theorem fix_identical_stop_times_strict (ts : List Int)
    (hn : ts.length ≤ 100)
    (hgap : List.Chain' (fun a b : Int => a = b ∨ a + 1000000 ≤ b) ts) :
    List.Chain' (· < ·) (fix_identical_stop_times ts) := by
  have hgapD : ∀ i : Nat, i + 1 < ts.length →
      ts.getD i 0 = ts.getD (i + 1) 0 ∨
        ts.getD i 0 + 1000000 ≤ ts.getD (i + 1) 0 := by
    intro i hi
    have h := List.chain'_iff_get.mp hgap i (by omega)
    rw [List.getD_eq_getElem _ _ (by omega), List.getD_eq_getElem _ _ hi]
    simpa [List.get_eq_getElem] using h
  have hle : List.Chain' (· ≤ ·) ts :=
    hgap.imp (fun {a b} h => by rcases h with h | h <;> omega)
  have hmono := chainLe_getD_mono ts hle
  have hwf := buildGroups_runsWF ts hmono
  have hidx := fixGroups_strict_go ts hn hgapD hwf ts rfl
    (fun _ _ => rfl) (fun i hi => by omega) (fun h0 _ => by omega)
  rw [show ((buildGroups ts).filter (fun g => 1 < g.2.length)).foldl
      (processGroup ts.length) ts = fix_identical_stop_times ts from rfl]
    at hidx
  have hlenfix := fix_identical_stop_times_length ts
  rw [List.chain'_iff_get]
  intro i hi2
  rw [hlenfix] at hi2
  have h := hidx i (by omega)
  rw [List.getD_eq_getElem _ _ (by rw [hlenfix]; omega),
    List.getD_eq_getElem _ _ (by rw [hlenfix]; omega)] at h
  simpa [List.get_eq_getElem] using h

theorem fix_identical_stop_times_strict_witness :
    ([0, 0, 1000000] : List Int).length ≤ 100 ∧
      List.Chain' (fun a b : Int => a = b ∨ a + 1000000 ≤ b) [0, 0, 1000000] ∧
      List.Chain' (· < ·) (fix_identical_stop_times [0, 0, 1000000]) :=
  ⟨by decide, by norm_num [List.chain'_cons],
    fix_identical_stop_times_strict [0, 0, 1000000] (by decide)
      (by norm_num [List.chain'_cons])⟩

/-- C3, counterexample.  The claim says the first StopTime's timestamp
never changes unless both boundaries collide with INTERIOR duplicates in
the same identical-timestamp group, and that a group containing the
first stop keeps the first stop's timestamp.  On `[0, 0]` the single
group contains both boundaries and no interior duplicate at all, yet the
code takes the `idx == len-1` branch and moves the FIRST stop to
`-30` seconds, keeping the last. -/
theorem fix_identical_stop_times_boundary_cex :
    List.Chain' (· ≤ ·) ([0, 0] : List Int) ∧
      fix_identical_stop_times [0, 0] = [-30000000, 0] ∧
      (fix_identical_stop_times [0, 0]).getD 0 0 ≠
        ([0, 0] : List Int).getD 0 0 := by
  refine ⟨by norm_num [List.chain'_cons], by decide, ?_⟩
  rw [show fix_identical_stop_times [0, 0] = [-30000000, 0] from by decide]
  decide

/-- C3, amended.  For every list sorted by non-decreasing arrival time,
`fix_identical_stop_times` never changes the LAST stop time's timestamp;
and it never changes the FIRST stop time's timestamp unless the first
and the last stop carry the same timestamp (i.e. the whole list is one
identical-timestamp group) — in particular a duplicate group containing
the first but not the last stop keeps the first stop's timestamp, and
any group containing the last stop keeps the last stop's timestamp. -/
theorem fix_identical_stop_times_boundary (ts : List Int)
    (hs : List.Chain' (· ≤ ·) ts) :
    (fix_identical_stop_times ts).getD (ts.length - 1) 0 =
        ts.getD (ts.length - 1) 0 ∧
      (ts.getD 0 0 ≠ ts.getD (ts.length - 1) 0 →
        (fix_identical_stop_times ts).getD 0 0 = ts.getD 0 0) := by
  have hmono := chainLe_getD_mono ts hs
  have hwf := buildGroups_runsWF ts hmono
  exact ⟨fixGroups_last_go ts hwf ts rfl,
    fun hne => fixGroups_first_go0 ts hwf hne ts rfl⟩

theorem fix_identical_stop_times_boundary_witness :
    List.Chain' (· ≤ ·) ([0, 0, 3000000] : List Int) ∧
      ([0, 0, 3000000] : List Int).getD 0 0 ≠
        ([0, 0, 3000000] : List Int).getD
          (([0, 0, 3000000] : List Int).length - 1) 0 ∧
      (fix_identical_stop_times [0, 0, 3000000]).getD
          (([0, 0, 3000000] : List Int).length - 1) 0 =
        ([0, 0, 3000000] : List Int).getD
          (([0, 0, 3000000] : List Int).length - 1) 0 ∧
      (fix_identical_stop_times [0, 0, 3000000]).getD 0 0 =
        ([0, 0, 3000000] : List Int).getD 0 0 :=
  ⟨by norm_num [List.chain'_cons], by decide,
    (fix_identical_stop_times_boundary [0, 0, 3000000]
      (by norm_num [List.chain'_cons])).1,
    (fix_identical_stop_times_boundary [0, 0, 3000000]
      (by norm_num [List.chain'_cons])).2 (by decide)⟩

/-! ### C1: all-or-nothing commit -/

theorem runBody_committed :
    ∀ (body : List IngestStep) (s : DbSession),
      ((runBody s body).1).committed = s.committed := by
  intro body
  induction body with
  | nil => intro s; rfl
  | cons st rest ih =>
    intro s
    cases st with
    | add e => exact ih _
    | delete e => exact ih _
    | flush => exact ih _
    | raiseError m => rfl

/-- C1.  If any exception is raised at any point of the assembly body,
the error propagates to the caller and the durable store is unchanged:
the `except` clause rolls the pending transaction back, so the `finally`
commit commits an empty transaction and nothing created during the call
persists. -/
theorem vdvIngest_rollback_on_error (s : DbSession) (body : List IngestStep)
    (m : String) (h : (vdvIngest s body).2 = some m) :
    (vdvIngest s body).1.committed = s.committed := by
  have hb := runBody_committed body s
  unfold vdvIngest at h ⊢
  cases hrb : runBody s body with
  | mk s1 e =>
    rw [hrb] at h hb
    cases e with
    | none => exact Option.noConfusion h
    | some m' =>
      show (commitS (rollbackS s1)).committed = s.committed
      simp only [commitS, rollbackS]
      simpa using hb

theorem vdvIngest_rollback_on_error_witness :
    (vdvIngest ⟨[DbEntity.scenario 0], [], []⟩
        [IngestStep.add (DbEntity.trip 1), IngestStep.add (DbEntity.trip 2),
          IngestStep.flush,
          IngestStep.raiseError "ConsistencyError"]).2
        = some "ConsistencyError" ∧
      (vdvIngest ⟨[DbEntity.scenario 0], [], []⟩
        [IngestStep.add (DbEntity.trip 1), IngestStep.add (DbEntity.trip 2),
          IngestStep.flush,
          IngestStep.raiseError "ConsistencyError"]).1.committed
        = [DbEntity.scenario 0] :=
  ⟨rfl, vdvIngest_rollback_on_error _ _ "ConsistencyError" rfl⟩

/-! ### C4: SEL_FZT_FELD resolution -/

/-- C4, counterexample.  The claim says that when the exact key misses
and the relaxed key matches more than one candidate, the fallback to the
first candidate happens only after verifying all candidates carry the
same duration, disagreement being a hard error.  Here the exact key
(timing group 9) misses, the relaxed key matches two candidates whose
durations differ (10 s vs 20 s), and resolution nevertheless succeeds
with the first candidate: the verification only exists on the
exact-match path (vdv.py lines 486-515), the relaxed path (lines
471-484) installs `[sel_fzt_feld[0]]` unconditionally. -/
theorem resolveSelFzt_relaxed_fallback_cex :
    resolveSelFzt
        (sel_fzt_felds_by_pk
          [⟨1, 1, 5, 1, 10, 1, 20, 10000000⟩, ⟨1, 1, 6, 1, 10, 1, 20, 20000000⟩])
        (sel_fzt_felds_by_relaxed_pk
          [⟨1, 1, 5, 1, 10, 1, 20, 10000000⟩, ⟨1, 1, 6, 1, 10, 1, 20, 20000000⟩])
        ⟨1, 1, 9, 1, 10, 1, 20⟩
      = .ok ⟨1, 1, 5, 1, 10, 1, 20, 10000000⟩ ∧
    alookup
        (sel_fzt_felds_by_pk
          [⟨1, 1, 5, 1, 10, 1, 20, 10000000⟩, ⟨1, 1, 6, 1, 10, 1, 20, 20000000⟩])
        ⟨1, 1, 9, 1, 10, 1, 20⟩ = none ∧
    alookup
        (sel_fzt_felds_by_relaxed_pk
          [⟨1, 1, 5, 1, 10, 1, 20, 10000000⟩, ⟨1, 1, 6, 1, 10, 1, 20, 20000000⟩])
        (relaxKey ⟨1, 1, 9, 1, 10, 1, 20⟩)
      = some [⟨1, 1, 5, 1, 10, 1, 20, 10000000⟩, ⟨1, 1, 6, 1, 10, 1, 20, 20000000⟩] ∧
    (10000000 : Int) ≠ 20000000 := by
  refine ⟨rfl, rfl, rfl, by decide⟩

/-- C4, amended.  When the exact composite key matches a list of more
than one record, ingestion verifies that all of them carry the same
driving duration and raises a hard error on disagreement; when the
exact key has no entry and the relaxed key (without the timing group)
matches candidates, ingestion falls back to the FIRST candidate with no
verification whatsoever, even if the candidates disagree. -/
theorem resolveSelFzt_amended (byPk : List (SelFztKey × List SelFztFeld))
    (byRelaxed : List (SelFztRelaxedKey × List SelFztFeld)) (pk : SelFztKey) :
    (∀ x xs, alookup byPk pk = none →
      alookup byRelaxed (relaxKey pk) = some (x :: xs) →
      resolveSelFzt byPk byRelaxed pk = .ok x) ∧
    (∀ x y rest, alookup byPk pk = some (x :: y :: rest) →
      ((x :: y :: rest).map (fun z => z.sel_fzt)).dedup.length ≠ 1 →
      resolveSelFzt byPk byRelaxed pk =
        .error "Multiple SelFztFelds have different durations") := by
  constructor
  · intro x xs hnone hsome
    simp only [resolveSelFzt, hnone, hsome]
  · intro x y rest hsome hdur
    simp only [resolveSelFzt, hsome]
    rw [if_pos hdur]

theorem resolveSelFzt_amended_witness :
    resolveSelFzt
        (sel_fzt_felds_by_pk
          [⟨1, 1, 5, 1, 10, 1, 20, 10000000⟩, ⟨1, 1, 6, 1, 10, 1, 20, 20000000⟩])
        (sel_fzt_felds_by_relaxed_pk
          [⟨1, 1, 5, 1, 10, 1, 20, 10000000⟩, ⟨1, 1, 6, 1, 10, 1, 20, 20000000⟩])
        ⟨1, 1, 9, 1, 10, 1, 20⟩
      = .ok ⟨1, 1, 5, 1, 10, 1, 20, 10000000⟩ ∧
    resolveSelFzt
        (sel_fzt_felds_by_pk
          [⟨1, 1, 5, 1, 10, 1, 20, 10000000⟩, ⟨1, 1, 5, 1, 10, 1, 20, 20000000⟩])
        (sel_fzt_felds_by_relaxed_pk
          [⟨1, 1, 5, 1, 10, 1, 20, 10000000⟩, ⟨1, 1, 5, 1, 10, 1, 20, 20000000⟩])
        ⟨1, 1, 5, 1, 10, 1, 20⟩
      = .error "Multiple SelFztFelds have different durations" :=
  ⟨(resolveSelFzt_amended _ _ _).1 ⟨1, 1, 5, 1, 10, 1, 20, 10000000⟩
      [⟨1, 1, 6, 1, 10, 1, 20, 20000000⟩] rfl rfl,
    (resolveSelFzt_amended _ _ _).2 ⟨1, 1, 5, 1, 10, 1, 20, 10000000⟩
      ⟨1, 1, 5, 1, 10, 1, 20, 20000000⟩ [] rfl (by decide)⟩

/-! ### C5 and C6: schema validation -/

theorem mem_collectTables_aux :
    ∀ (names acc : List VDV_Table_Name) (a : VDV_Table_Name),
      a ∈ names.foldl (fun acc n => if n ∈ acc then acc else acc ++ [n]) acc ↔
        a ∈ acc ∨ a ∈ names := by
  intro names
  induction names with
  | nil => intro acc a; simp
  | cons n rest ih =>
    intro acc a
    rw [List.foldl_cons]
    by_cases hn : n ∈ acc
    · rw [if_pos hn, ih]
      simp only [List.mem_cons]
      constructor
      · rintro (h | h)
        · exact Or.inl h
        · exact Or.inr (Or.inr h)
      · rintro (h | h | h)
        · exact Or.inl h
        · exact Or.inl (h ▸ hn)
        · exact Or.inr h
    · rw [if_neg hn, ih]
      simp only [List.mem_append, List.mem_cons, List.mem_singleton]
      tauto

theorem mem_collectTables (names : List VDV_Table_Name) (a : VDV_Table_Name) :
    a ∈ collectTables names ↔ a ∈ names := by
  unfold collectTables
  rw [mem_collectTables_aux]
  simp

/-- C5.  If both dwell-time table kinds are present among the input
files, or neither is, schema validation returns an error — it never
returns a validated table set.  The validator consumes only the file
HEADERS (table names); record decoding happens afterwards, in `ingest`,
so the rejection precedes the decoding of any record. -/
theorem validate_dwell_exclusivity (names : List VDV_Table_Name)
    (h : (VDV_Table_Name.REC_FRT_HZT ∈ names ∧ VDV_Table_Name.ORT_HZTF ∈ names) ∨
      (VDV_Table_Name.REC_FRT_HZT ∉ names ∧ VDV_Table_Name.ORT_HZTF ∉ names)) :
    ∃ msg, validate_input_data_vdv_451 names = .error msg := by
  cases hv : validate_input_data_vdv_451 names with
  | error msg => exact ⟨msg, rfl⟩
  | ok l =>
    exfalso
    simp only [validate_input_data_vdv_451] at hv
    split_ifs at hv with h1 h2 h3
    rcases h with ⟨hrb, hob⟩ | ⟨hrn, hon⟩
    · exact h2 ⟨(mem_collectTables _ _).mpr hrb, (mem_collectTables _ _).mpr hob⟩
    · exact h3 ⟨fun hc => hrn ((mem_collectTables _ _).mp hc),
        fun hc => hon ((mem_collectTables _ _).mp hc)⟩

theorem validate_dwell_exclusivity_witness :
    ((VDV_Table_Name.REC_FRT_HZT ∈
        (VdvRequiredTables ++ [VDV_Table_Name.REC_FRT_HZT, VDV_Table_Name.ORT_HZTF]) ∧
      VDV_Table_Name.ORT_HZTF ∈
        (VdvRequiredTables ++ [VDV_Table_Name.REC_FRT_HZT, VDV_Table_Name.ORT_HZTF])) ∨
      (VDV_Table_Name.REC_FRT_HZT ∉
        (VdvRequiredTables ++ [VDV_Table_Name.REC_FRT_HZT, VDV_Table_Name.ORT_HZTF]) ∧
      VDV_Table_Name.ORT_HZTF ∉
        (VdvRequiredTables ++ [VDV_Table_Name.REC_FRT_HZT, VDV_Table_Name.ORT_HZTF]))) ∧
    ∃ msg, validate_input_data_vdv_451
      (VdvRequiredTables ++ [VDV_Table_Name.REC_FRT_HZT, VDV_Table_Name.ORT_HZTF])
        = .error msg :=
  ⟨Or.inl ⟨by decide, by decide⟩,
    validate_dwell_exclusivity _ (Or.inl ⟨by decide, by decide⟩)⟩

/-- C6 (code bug).  With the FIRMENKALENDER table present in two input
files (the other required tables and ORT_HZTF present once), the claim
— and vdv.py's own error message "is present in multiple files.
Aborting." (line 770) — demand that validation fail listing the
duplicate.  Instead the raise sits inside the `try:` whose
`except (ValueError, UnicodeDecodeError): ... continue` (lines 776-779)
catches it, so the duplicate file is skipped at debug log level and
validation returns a validated table set built from the first file. -/
theorem duplicate_table_not_rejected :
    validate_input_data_vdv_451
        (VdvRequiredTables ++ [VDV_Table_Name.ORT_HZTF, VDV_Table_Name.FIRMENKALENDER])
      = .ok (VdvRequiredTables ++ [VDV_Table_Name.ORT_HZTF]) ∧
    (VdvRequiredTables ++ [VDV_Table_Name.ORT_HZTF, VDV_Table_Name.FIRMENKALENDER]).count
        VDV_Table_Name.FIRMENKALENDER = 2 := by
  refine ⟨rfl, by decide⟩

/-! ### C8: BASIS_VER_GUELTIGKEIT version handling -/

/-- C8, counterexample.  The claim says that with entries for more than
one version the import selects the latest version whose validity start
is not after the current date and proceeds.  The code instead raises as
soon as the distinct-entry count differs from one; no selection logic
exists anywhere in `ingest`. -/
theorem import_basis_ver_multiple_cex :
    import_basis_ver_gueltigkeit [⟨1, 100⟩, ⟨2, 200⟩]
      = .error "The table contains multiple distinct entries. Only one entry is allowed." := by
  rfl

/-- C8, amended.  When BASIS_VER_GUELTIGKEIT contains more than one
distinct entry the import aborts with an error instead of selecting a
version; it proceeds (with the rows unchanged) only when all rows
coincide in a single distinct entry. -/
theorem import_basis_ver_amended (objects : List BasisVerGueltigkeit) :
    (objects.dedup.length ≠ 1 →
      import_basis_ver_gueltigkeit objects
        = .error "The table contains multiple distinct entries. Only one entry is allowed.") ∧
    (objects.dedup.length = 1 →
      import_basis_ver_gueltigkeit objects = .ok objects) := by
  unfold import_basis_ver_gueltigkeit
  constructor
  · intro h
    rw [if_pos h]
  · intro h
    rw [if_neg (by omega)]

theorem import_basis_ver_amended_witness :
    import_basis_ver_gueltigkeit [⟨1, 100⟩, ⟨2, 200⟩]
      = .error "The table contains multiple distinct entries. Only one entry is allowed." ∧
    import_basis_ver_gueltigkeit [⟨1, 100⟩, ⟨1, 100⟩] = .ok [⟨1, 100⟩, ⟨1, 100⟩] :=
  ⟨(import_basis_ver_amended _).1 (by decide),
    (import_basis_ver_amended _).2 (by decide)⟩

/-! ### C9: progress callback -/

/-- C9, counterexample.  A run of `prepare` on a valid archive completes
every stage and returns the UUID outcome, yet the sequence of values
reported to the supplied progress callback is empty: `progress_callback`
is accepted by both `prepare` and `ingest` but never invoked anywhere in
their bodies, contradicting "invoked with a monotonically increasing
fraction as each pipeline stage completes". -/
theorem progress_callback_never_invoked_cex :
    (VdvIngester_prepare [⟨"a.x10".toList, 5, false⟩]
        (VdvRequiredTables ++ [VDV_Table_Name.ORT_HZTF]) true).2 = [] ∧
    (VdvIngester_prepare [⟨"a.x10".toList, 5, false⟩]
        (VdvRequiredTables ++ [VDV_Table_Name.ORT_HZTF]) true).1
      = PrepareOutcome.prepared
          (collectTables (VdvRequiredTables ++ [VDV_Table_Name.ORT_HZTF])) := by
  constructor <;> rfl

/-- C9, amended.  The progress-callback parameter of both
`VdvIngester.prepare` and `VdvIngester.ingest` is accepted but never
invoked — the reported sequence is empty on every input — and supplying
or omitting the callback does not change the result of either method. -/
theorem progress_callback_unused (entries : List ZipEntryM)
    (headerNames : List VDV_Table_Name) (s : DbSession)
    (body : List IngestStep) (cb1 cb2 : Bool) :
    VdvIngester_prepare entries headerNames cb1
        = VdvIngester_prepare entries headerNames cb2 ∧
      (VdvIngester_prepare entries headerNames cb1).2 = [] ∧
      VdvIngester_ingest s body cb1 = VdvIngester_ingest s body cb2 ∧
      (VdvIngester_ingest s body cb1).2 = [] := by
  refine ⟨rfl, ?_, rfl, rfl⟩
  unfold VdvIngester_prepare
  rcases hv : validate_zip_file entries with ⟨b, errs⟩
  cases b
  · rfl
  · cases hvd : validate_input_data_vdv_451 headerNames <;> rfl

/-! ### C10: zip archive validation in prepare -/

theorem alookup_dictInsert_self :
    ∀ (m : List (List Char × String)) (k : List Char) (v : String),
      alookup (dictInsert m k v) k = some v := by
  intro m
  induction m with
  | nil => intro k v; simp [dictInsert, alookup]
  | cons p rest ih =>
    intro k v
    obtain ⟨k', v'⟩ := p
    simp only [dictInsert]
    by_cases hk : k = k'
    · rw [if_pos hk]
      simp [alookup]
    · rw [if_neg hk]
      simp only [alookup, if_neg hk]
      exact ih k v

theorem alookup_dictInsert_ne :
    ∀ (m : List (List Char × String)) (k : List Char) (v : String)
      (q : List Char), q ≠ k → alookup (dictInsert m k v) q = alookup m q := by
  intro m
  induction m with
  | nil => intro k v q hq; simp [dictInsert, alookup, hq]
  | cons p rest ih =>
    intro k v q hq
    obtain ⟨k', v'⟩ := p
    simp only [dictInsert]
    by_cases hk : k = k'
    · rw [if_pos hk]
      simp only [alookup]
      rw [if_neg hq, if_neg (show ¬ q = k' from by rw [← hk]; exact hq)]
    · rw [if_neg hk]
      simp only [alookup]
      by_cases hq' : q = k'
      · rw [if_pos hq', if_pos hq']
      · rw [if_neg hq', if_neg hq']
        exact ih k v q hq

theorem alookup_dictInsert_isSome (m : List (List Char × String))
    (k : List Char) (v : String) (q : List Char)
    (h : (alookup m q).isSome) : (alookup (dictInsert m k v) q).isSome := by
  by_cases hq : q = k
  · subst hq
    rw [alookup_dictInsert_self]
    rfl
  · rw [alookup_dictInsert_ne m k v q hq]
    exact h

theorem zipStep_false (acc : Bool × List (List Char × String)) (e : ZipEntryM)
    (h : acc.1 = false) : (zipEntryStep acc e).1 = false := by
  unfold zipEntryStep
  split_ifs <;> first | rfl | exact h

theorem zipStep_isSome (acc : Bool × List (List Char × String)) (e : ZipEntryM)
    (q : List Char) (h : (alookup acc.2 q).isSome) :
    (alookup (zipEntryStep acc e).2 q).isSome := by
  unfold zipEntryStep
  split_ifs <;>
    first
      | exact h
      | exact alookup_dictInsert_isSome _ _ _ _ h

theorem zipStep_offending (acc : Bool × List (List Char × String))
    (e : ZipEntryM) (hoff : entryOffending e = true) :
    (zipEntryStep acc e).1 = false ∧
      (alookup (zipEntryStep acc e).2 e.filename).isSome := by
  unfold entryOffending at hoff
  unfold zipEntryStep
  split_ifs at hoff ⊢ with h1 h2 h3
  · refine ⟨rfl, ?_⟩
    show (alookup (dictInsert acc.2 e.filename "Empty file") e.filename).isSome
    rw [alookup_dictInsert_self]
    rfl
  · refine ⟨rfl, ?_⟩
    show (alookup (dictInsert acc.2 e.filename "File size exceeds 100 MiB")
      e.filename).isSome
    rw [alookup_dictInsert_self]
    rfl
  · exfalso
    simp [h2, h3] at hoff
  · refine ⟨rfl, ?_⟩
    show (alookup
      (dictInsert acc.2 e.filename "Invalid file extension or is a directory")
      e.filename).isSome
    rw [alookup_dictInsert_self]
    rfl

theorem validateZip_fold_false :
    ∀ (entries : List ZipEntryM) (acc : Bool × List (List Char × String)),
      acc.1 = false → (entries.foldl zipEntryStep acc).1 = false := by
  intro entries
  induction entries with
  | nil => intro acc h; exact h
  | cons x rest ih =>
    intro acc h
    rw [List.foldl_cons]
    exact ih _ (zipStep_false acc x h)

theorem validateZip_fold_isSome :
    ∀ (entries : List ZipEntryM) (acc : Bool × List (List Char × String))
      (q : List Char), (alookup acc.2 q).isSome →
      (alookup (entries.foldl zipEntryStep acc).2 q).isSome := by
  intro entries
  induction entries with
  | nil => intro acc q h; exact h
  | cons x rest ih =>
    intro acc q h
    rw [List.foldl_cons]
    exact ih _ q (zipStep_isSome acc x q h)

theorem validateZip_fold_offending :
    ∀ (entries : List ZipEntryM) (acc : Bool × List (List Char × String))
      (e : ZipEntryM), e ∈ entries → entryOffending e = true →
      (entries.foldl zipEntryStep acc).1 = false ∧
        (alookup (entries.foldl zipEntryStep acc).2 e.filename).isSome := by
  intro entries
  induction entries with
  | nil => intro acc e he; exact absurd he (List.not_mem_nil e)
  | cons x rest ih =>
    intro acc e he hoff
    rw [List.foldl_cons]
    rcases List.mem_cons.mp he with heq | hmem
    · subst heq
      obtain ⟨hf, hs⟩ := zipStep_offending acc e hoff
      exact ⟨validateZip_fold_false rest _ hf, validateZip_fold_isSome rest _ _ hs⟩
    · exact ih _ e hmem hoff

/-- C10.  Whenever the archive contains an entry that is not a
non-directory `.x10`/`.X10` file, or such a file that is empty or
larger than 100 MiB, `prepare` rejects the archive: `validate_zip_file`
returns `False` with an error message recorded under every offending
entry's file name, and `prepare` returns that error map without
extracting the archive or examining any table. -/
theorem prepare_rejects_bad_zip (entries : List ZipEntryM)
    (headerNames : List VDV_Table_Name) (cb : Bool)
    (h : ∃ e ∈ entries, entryOffending e = true) :
    (validate_zip_file entries).1 = false ∧
      (∀ e ∈ entries, entryOffending e = true →
        (alookup (validate_zip_file entries).2 e.filename).isSome) ∧
      VdvIngester_prepare entries headerNames cb
        = (PrepareOutcome.rejectedZip (validate_zip_file entries).2, []) := by
  obtain ⟨e0, he0, hoff0⟩ := h
  have h1 : (validate_zip_file entries).1 = false :=
    (validateZip_fold_offending entries (true, []) e0 he0 hoff0).1
  refine ⟨h1, ?_, ?_⟩
  · intro e he hoff
    exact (validateZip_fold_offending entries (true, []) e he hoff).2
  · unfold VdvIngester_prepare
    cases hv : validate_zip_file entries with
    | mk b errs =>
      rw [hv] at h1
      cases b
      · rfl
      · exact Bool.noConfusion h1

theorem prepare_rejects_bad_zip_witness :
    (∃ e ∈ [ZipEntryM.mk "notes.txt".toList 3 false],
        entryOffending e = true) ∧
      ((validate_zip_file [ZipEntryM.mk "notes.txt".toList 3 false]).1 = false ∧
        (∀ e ∈ [ZipEntryM.mk "notes.txt".toList 3 false],
          entryOffending e = true →
          (alookup (validate_zip_file
            [ZipEntryM.mk "notes.txt".toList 3 false]).2 e.filename).isSome) ∧
        VdvIngester_prepare [ZipEntryM.mk "notes.txt".toList 3 false] [] true
          = (PrepareOutcome.rejectedZip
              (validate_zip_file [ZipEntryM.mk "notes.txt".toList 3 false]).2,
            [])) :=
  ⟨by decide, prepare_rejects_bad_zip _ _ _ (by decide)⟩

/-! ### C7: the two-place scenario -/

theorem fix_pair_distinct (a b : Int) (hba : ¬ b = a) :
    fix_identical_stop_times [a, b] = [a, b] := by
  simp [fix_identical_stop_times, dupGroups, buildGroups, insertGroup,
    List.enum_eq_enumFrom, List.enumFrom, hba]

theorem buildStopTimes_scenario (mid : Int) :
    buildStopTimes 2 mid ⟨[0, 120000000], [0, 0], 120000000⟩
      = [(mid, 0), (mid + 120000000, 0)] := by
  unfold buildStopTimes
  have hrange : List.range 2 = [0, 1] := by decide
  rw [hrange]
  simp only [List.map_cons, List.map_nil, List.getD_cons_zero,
    List.getD_cons_succ, add_zero]
  rw [fix_pair_distinct mid (mid + 120000000) (by omega)]
  rfl

/-- C7.  For an import with one line whose single variant has two
places, one timing field of 120 seconds between them, dwell 0 at both
places (one ORT_HZTF row per place), and one scheduled trip with start
offset 0 of normal trip kind (`fahrtart_nr = 1`) on a day-type mapped
to exactly one calendar date, `ingest` creates exactly one Trip: its
departure time is the local midnight of that date (in the fixed
Europe/Berlin zone, abstracted as `mid`), its arrival time is midnight
plus 120 s, it is a PASSENGER trip, and it has exactly two StopTimes at
offsets 0 and 120 s from midnight with dwell 0. -/
theorem vdv_two_place_scenario (mid : Int) :
    buildTripsForRecFrt [⟨0, 5⟩] (fun _ => mid) 5 1 0 2
        (computeTripTimes [⟨1, 1, 1, 10, 1, 20⟩] [120000000] []
          [⟨(1, 1, 10), 0⟩, ⟨(1, 1, 20), 0⟩] 0)
      = .ok [⟨mid, mid + 120000000, [(mid, 0), (mid + 120000000, 0)],
          TripTypeM.PASSENGER⟩] := by
  have htt : computeTripTimes [⟨1, 1, 1, 10, 1, 20⟩] [120000000] []
      [⟨(1, 1, 10), 0⟩, ⟨(1, 1, 20), 0⟩] 0
      = ⟨[0, 120000000], [0, 0], 120000000⟩ := by decide
  rw [htt]
  unfold buildTripsForRecFrt
  simp only [List.foldlM, if_true, List.nil_append, add_zero]
  rw [if_pos (show (0 : Int) ≠ 120000000 from by omega)]
  rw [buildStopTimes_scenario mid]
  rfl
